import Mathlib

/-!
Verification of the shulkers plugin manager core against its design notes.

The definitions below are shallow embeddings of the TypeScript source:
the version comparator and update planner from `src/commands/add.ts` and
the outdated command, the source specification parser, the Modrinth
search version derivation, the repository manager fan-out, and the
generic JSON adapter path resolution and string coercion.
-/

set_option maxHeartbeats 1000000

/-! ## Version comparator (`parseVersion`, `compareVersions` in add.ts) -/

/-- Parsed semver components, mirroring the record returned by
`parseVersion` in `src/commands/add.ts`. -/
structure SemVer where
  major : Nat
  minor : Nat
  patch : Nat
  prerelease : String
deriving DecidableEq, Repr

/-- Embeds `version.replace(/^v/i, "")`: drop one leading letter v or V. -/
def stripLeadingV (s : String) : String :=
  match s.data with
  | c :: rest => if c = 'v' ∨ c = 'V' then String.mk rest else s
  | [] => s

/-- Numeric value of a list of decimal digit characters, as read by
`parseInt(..., 10)` on the digit run captured by the regex. -/
def natOfDigits (ds : List Char) : Nat :=
  ds.foldl (fun n c => 10 * n + (c.toNat - '0'.toNat)) 0

/-- One optional group `(?:\.(\d+))?` of the version regex: consumes a dot
followed by a nonempty maximal digit run, or nothing. -/
def parseNumPart (cs : List Char) : Option (Nat × List Char) :=
  match cs with
  | '.' :: rest =>
    let ds := rest.takeWhile Char.isDigit
    if ds.isEmpty then none
    else some (natOfDigits ds, rest.dropWhile Char.isDigit)
  | _ => none

/-- The regex match of `parseVersion` fails exactly when, after stripping a
leading v, the string does not begin with a decimal digit. -/
def versionParseFails (version : String) : Bool :=
  ((stripLeadingV version).data.takeWhile Char.isDigit).isEmpty

/-- Embeds `parseVersion` from `src/commands/add.ts`: match the cleaned
string against `^(\d+)(?:\.(\d+))?(?:\.(\d+))?(.*)$`; on failure return
all zero components with the original input as prerelease. -/
def parseVersion (version : String) : SemVer :=
  let cleaned := stripLeadingV version
  let cs := cleaned.data
  let ds := cs.takeWhile Char.isDigit
  if ds.isEmpty then ⟨0, 0, 0, version⟩
  else
    let rest := cs.dropWhile Char.isDigit
    let major := natOfDigits ds
    match parseNumPart rest with
    | none => ⟨major, 0, 0, String.mk rest⟩
    | some (minor, rest2) =>
      match parseNumPart rest2 with
      | none => ⟨major, minor, 0, String.mk rest2⟩
      | some (patch, rest3) => ⟨major, minor, patch, String.mk rest3⟩

/-- Comparison of two parsed versions; the body of `compareVersions`. -/
def cmpSemVer (vA vB : SemVer) : Int :=
  if vA.major ≠ vB.major then if vA.major < vB.major then -1 else 1
  else if vA.minor ≠ vB.minor then if vA.minor < vB.minor then -1 else 1
  else if vA.patch ≠ vB.patch then if vA.patch < vB.patch then -1 else 1
  else if vA.prerelease = "" ∧ vB.prerelease ≠ "" then 1
  else if vA.prerelease ≠ "" ∧ vB.prerelease = "" then -1
  else 0

/-- Embeds `compareVersions` from `src/commands/add.ts`. -/
def compareVersions (a b : String) : Int :=
  cmpSemVer (parseVersion a) (parseVersion b)

/-- Stability rank used by the prerelease tie break: stable versions rank
above prerelease versions at equal numeric components. -/
def preRank (v : SemVer) : Nat :=
  if v.prerelease = "" then 1 else 0

theorem cmpSemVer_refl (v : SemVer) : cmpSemVer v v = 0 := by
  simp [cmpSemVer]

theorem cmpSemVer_antisymm (x y : SemVer) : cmpSemVer x y = -cmpSemVer y x := by
  unfold cmpSemVer
  split_ifs <;> first | rfl | omega | tauto

/-- The sign of `cmpSemVer` is the lexicographic order on
(major, minor, patch, stability rank). -/
theorem cmpSemVer_nonpos_iff (x y : SemVer) :
    cmpSemVer x y ≤ 0 ↔
      (x.major < y.major ∨ (x.major = y.major ∧
        (x.minor < y.minor ∨ (x.minor = y.minor ∧
          (x.patch < y.patch ∨ (x.patch = y.patch ∧
            preRank x ≤ preRank y)))))) := by
  unfold cmpSemVer preRank
  split_ifs <;> simp_all

theorem cmpSemVer_trans_nonpos (x y z : SemVer)
    (h1 : cmpSemVer x y ≤ 0) (h2 : cmpSemVer y z ≤ 0) : cmpSemVer x z ≤ 0 := by
  rw [cmpSemVer_nonpos_iff] at h1 h2 ⊢
  omega

theorem compareVersions_refl (a : String) : compareVersions a a = 0 :=
  cmpSemVer_refl _

theorem compareVersions_antisymm (a b : String) :
    compareVersions a b = -compareVersions b a :=
  cmpSemVer_antisymm _ _

theorem compareVersions_trans_nonpos (a b c : String)
    (h1 : compareVersions a b ≤ 0) (h2 : compareVersions b c ≤ 0) :
    compareVersions a c ≤ 0 :=
  cmpSemVer_trans_nonpos _ _ _ h1 h2

/-! ## Update planner (`findMinorUpdate`, `supportsServerVersion`,
and the target selection of `updateCommand` in add.ts) -/

/-- One entry of a version history as consumed by the update command:
the `name` (version string) and optional `gameVersions` list. -/
structure VEntry where
  name : String
  gameVersions : Option (List String)
deriving DecidableEq, Repr

/-- The loop condition of `findMinorUpdate`: same parsed major as the
current version and strictly greater per `compareVersions`. -/
def Qualifies (currentVersion : String) (v : VEntry) : Prop :=
  (parseVersion v.name).major = (parseVersion currentVersion).major ∧
    0 < compareVersions v.name currentVersion

instance (c : String) (v : VEntry) : Decidable (Qualifies c v) := by
  unfold Qualifies; infer_instance

/-- One iteration of the `findMinorUpdate` loop body. -/
def minorStep (currentVersion : String) (best : Option VEntry) (v : VEntry) :
    Option VEntry :=
  if (parseVersion v.name).major ≠ (parseVersion currentVersion).major then best
  else if compareVersions v.name currentVersion ≤ 0 then best
  else
    match best with
    | none => some v
    | some b => if 0 < compareVersions v.name b.name then some v else best

/-- Embeds `findMinorUpdate` from `src/commands/add.ts`: scan the version
list keeping the best same-major strictly-newer entry. -/
def findMinorUpdate (currentVersion : String) (versions : List VEntry) :
    Option VEntry :=
  versions.foldl (minorStep currentVersion) none

theorem minorStep_none (c : String) (v : VEntry) (hq : Qualifies c v) :
    minorStep c none v = some v := by
  obtain ⟨h1, h2⟩ := hq
  have h3 : ¬ compareVersions v.name c ≤ 0 := by omega
  simp [minorStep, h1, h3]

theorem minorStep_replace (c : String) (b : VEntry) (v : VEntry)
    (hq : Qualifies c v) (hb : 0 < compareVersions v.name b.name) :
    minorStep c (some b) v = some v := by
  obtain ⟨h1, h2⟩ := hq
  have h3 : ¬ compareVersions v.name c ≤ 0 := by omega
  simp [minorStep, h1, h3, hb]

theorem minorStep_keep (c : String) (b : VEntry) (v : VEntry)
    (hq : Qualifies c v) (hb : ¬ 0 < compareVersions v.name b.name) :
    minorStep c (some b) v = some b := by
  obtain ⟨h1, h2⟩ := hq
  have h3 : ¬ compareVersions v.name c ≤ 0 := by omega
  simp [minorStep, h1, h3, hb]

theorem minorStep_not_qualifies (c : String) (acc : Option VEntry) (v : VEntry)
    (h : ¬ Qualifies c v) : minorStep c acc v = acc := by
  unfold Qualifies at h
  push_neg at h
  unfold minorStep
  split_ifs with h1 h2
  · rfl
  · rfl
  · exact absurd (h (by omega)) (by omega)

theorem minorStep_some (c : String) (b : VEntry) (v : VEntry) :
    ∃ r, minorStep c (some b) v = some r := by
  by_cases hq : Qualifies c v
  · by_cases hb : 0 < compareVersions v.name b.name
    · exact ⟨v, minorStep_replace c b v hq hb⟩
    · exact ⟨b, minorStep_keep c b v hq hb⟩
  · exact ⟨b, minorStep_not_qualifies c (some b) v hq⟩

theorem findMinorUpdate_loop_ne_none (c : String) (versions : List VEntry)
    (b : VEntry) : versions.foldl (minorStep c) (some b) ≠ none := by
  induction versions generalizing b with
  | nil => simp
  | cons v vs ih =>
    obtain ⟨r, hr⟩ := minorStep_some c b v
    simpa [List.foldl_cons, hr] using ih r

theorem findMinorUpdate_loop_none_iff (c : String) (versions : List VEntry)
    (acc : Option VEntry) :
    versions.foldl (minorStep c) acc = none ↔
      acc = none ∧ ∀ v ∈ versions, ¬ Qualifies c v := by
  induction versions generalizing acc with
  | nil => simp
  | cons v vs ih =>
    constructor
    · intro h
      by_cases hq : Qualifies c v
      · exfalso
        have hstep : ∃ r, minorStep c acc v = some r := by
          cases acc with
          | none => exact ⟨v, minorStep_none c v hq⟩
          | some b => exact minorStep_some c b v
        obtain ⟨r, hr⟩ := hstep
        rw [List.foldl_cons, hr] at h
        exact findMinorUpdate_loop_ne_none c vs r h
      · rw [List.foldl_cons, minorStep_not_qualifies c acc v hq] at h
        obtain ⟨ha, hall⟩ := (ih acc).mp h
        refine ⟨ha, fun w hw => ?_⟩
        rcases List.mem_cons.mp hw with h | h
        · exact h ▸ hq
        · exact hall w h
    · rintro ⟨ha, hall⟩
      rw [List.foldl_cons, minorStep_not_qualifies c acc v (hall v (by simp))]
      exact (ih acc).mpr ⟨ha, fun w hw => hall w (by simp [hw])⟩

theorem findMinorUpdate_loop_mem (c : String) (versions : List VEntry) :
    ∀ (acc : Option VEntry) (b : VEntry),
      versions.foldl (minorStep c) acc = some b →
      (b ∈ versions ∧ Qualifies c b) ∨ acc = some b := by
  induction versions with
  | nil => intro acc b h; right; simpa using h
  | cons v vs ih =>
    intro acc b h
    rw [List.foldl_cons] at h
    rcases ih (minorStep c acc v) b h with hin | hacc
    · exact Or.inl ⟨by simp [hin.1], hin.2⟩
    · by_cases hq : Qualifies c v
      · cases acc with
        | none =>
          rw [minorStep_none c v hq] at hacc
          simp only [Option.some.injEq] at hacc
          exact Or.inl ⟨by simp [hacc], hacc ▸ hq⟩
        | some a =>
          by_cases hb : 0 < compareVersions v.name a.name
          · rw [minorStep_replace c a v hq hb] at hacc
            simp only [Option.some.injEq] at hacc
            exact Or.inl ⟨by simp [hacc], hacc ▸ hq⟩
          · rw [minorStep_keep c a v hq hb] at hacc
            exact Or.inr hacc
      · rw [minorStep_not_qualifies c acc v hq] at hacc
        exact Or.inr hacc

theorem findMinorUpdate_loop_max (c : String) (versions : List VEntry) :
    ∀ (acc : Option VEntry) (b : VEntry),
      versions.foldl (minorStep c) acc = some b →
      (∀ a, acc = some a → compareVersions a.name b.name ≤ 0) ∧
      (∀ v ∈ versions, Qualifies c v → compareVersions v.name b.name ≤ 0) := by
  induction versions with
  | nil =>
    intro acc b h
    simp only [List.foldl_nil] at h
    refine ⟨fun a ha => ?_, by simp⟩
    rw [ha] at h
    simp only [Option.some.injEq] at h
    rw [h, compareVersions_refl]
  | cons v vs ih =>
    intro acc b h
    rw [List.foldl_cons] at h
    obtain ⟨hacc, hvs⟩ := ih (minorStep c acc v) b h
    by_cases hq : Qualifies c v
    · have hvb : compareVersions v.name b.name ≤ 0 := by
        cases acc with
        | none => simpa using hacc v (minorStep_none c v hq)
        | some a =>
          by_cases hb : 0 < compareVersions v.name a.name
          · simpa using hacc v (minorStep_replace c a v hq hb)
          · have hab := hacc a (minorStep_keep c a v hq hb)
            exact compareVersions_trans_nonpos _ _ _ (by omega) hab
      refine ⟨fun a ha => ?_, fun w hw hwq => ?_⟩
      · subst ha
        by_cases hb : 0 < compareVersions v.name a.name
        · have hav : compareVersions a.name v.name ≤ 0 := by
            have := compareVersions_antisymm a.name v.name
            omega
          exact compareVersions_trans_nonpos _ _ _ hav hvb
        · exact hacc a (minorStep_keep c a v hq hb)
      · rcases List.mem_cons.mp hw with h | h
        · exact h ▸ hvb
        · exact hvs w h hwq
    · rw [minorStep_not_qualifies c acc v hq] at hacc
      refine ⟨hacc, fun w hw hwq => ?_⟩
      rcases List.mem_cons.mp hw with h | h
      · exact absurd hwq (h ▸ hq)
      · exact hvs w h hwq

/-- Splitting a character list at every dot, as JS `split(".")` does
(the empty string yields one empty segment). -/
def splitOnDot (cs : List Char) : List (List Char) :=
  match cs with
  | [] => [[]]
  | c :: rest =>
    let r := splitOnDot rest
    if c = '.' then [] :: r
    else
      match r with
      | h :: t => (c :: h) :: t
      | [] => [[c]]

/-- Rejoining dot-separated segments, as JS `join(".")` does. -/
def joinDot : List (List Char) → List Char
  | [] => []
  | [x] => x
  | x :: rest => x ++ '.' :: joinDot rest

/-- JS `s.startsWith(pre)`. -/
def strStartsWith (s pre : String) : Bool :=
  pre.data.isPrefixOf s.data

/-- Embeds the truncation `split(".").slice(0, 2).join(".")` used by
`supportsServerVersion`: the first two dot-separated components. -/
def majorMinor (s : String) : String :=
  String.mk (joinDot ((splitOnDot s.data).take 2))

/-- Embeds `supportsServerVersion` from `src/commands/add.ts`. -/
def supportsServerVersion (gameVersions : Option (List String))
    (serverVersion : String) : Bool :=
  match gameVersions with
  | none => true
  | some gvs =>
    if gvs.isEmpty then true
    else
      let serverParts := majorMinor serverVersion
      gvs.any (fun v =>
        strStartsWith v serverParts ||
          strStartsWith serverVersion (majorMinor v))

/-- Modelled from the spec: a `compatibleGameVersions` list intersects the
declared server game version at major.minor granularity when some entry
has the same major.minor truncation as the server version. -/
def specIntersectsMM (gameVersions : List String) (serverVersion : String) :
    Bool :=
  gameVersions.any (fun v => majorMinor v = majorMinor serverVersion)

/-- Target selection of `updateCommand`: head of the list in latest mode
when strictly newer, otherwise `findMinorUpdate`. -/
def chooseTarget (useLatest : Bool) (depVersion : String)
    (versions : List VEntry) : Option VEntry :=
  if useLatest then
    match versions with
    | [] => none
    | latest :: _ =>
      if compareVersions depVersion latest.name < 0 then some latest else none
  else findMinorUpdate depVersion versions

/-- Outcome of the per-dependency update planning step. -/
inductive PlanResult where
  | noUpdate
  | update (target : VEntry)
  | skipped (target : VEntry)
deriving DecidableEq, Repr

/-- The pure core of the per-dependency loop of `updateCommand` in
`src/commands/add.ts`: pick a target version, then apply the safe-mode
compatibility filter; `update` leads to a download, `skipped` does not. -/
def planUpdate (useLatest useSafe : Bool) (depVersion : String)
    (versions : List VEntry) (serverVersion : String) : PlanResult :=
  if versions.isEmpty then .noUpdate
  else
    match chooseTarget useLatest depVersion versions with
    | none => .noUpdate
    | some t =>
      if useSafe && !(supportsServerVersion t.gameVersions serverVersion) then
        .skipped t
      else .update t

/-! ## Source specification parser (`parseSource` in the source resolver) -/

/-- The string-keyed own properties of `Object.prototype` other than
`constructor` and the `__proto__` accessor: the JS `in` operator and
plain property reads find these on every plain object and every plain
record literal through the prototype chain, and each holds a (truthy)
built-in function. -/
def OBJECT_PROTO_METHODS : List String :=
  ["hasOwnProperty", "isPrototypeOf", "propertyIsEnumerable",
   "toLocaleString", "toString", "valueOf", "__defineGetter__",
   "__defineSetter__", "__lookupGetter__", "__lookupSetter__"]

/-- A value produced by reading a property of the `SOURCE_ALIASES` record
literal: either one of its own entries (a canonical source string) or a
truthy value inherited from `Object.prototype` (reading `constructor`
yields the `Object` constructor function, reading `__proto__` yields
`Object.prototype`, and the other inherited names yield built-in
functions); `protoJunk` records the accessed key. -/
inductive SourceVal where
  | canonical (s : String)
  | protoJunk (key : String)
deriving DecidableEq, Repr

/-- Result record of `parseSource`. -/
structure ParsedSource where
  source : Option SourceVal
  id : Option String
  query : Option String
  version : Option String
deriving DecidableEq, Repr

/-- The `SOURCE_ALIASES` table of the source resolver (its own
properties). -/
def SOURCE_ALIASES : List (String × String) :=
  [("spigot", "spigot"), ("spiget", "spigot"),
   ("modrinth", "modrinth"), ("github", "github")]

/-- Lookup of a key among the own entries of the alias table. -/
def lookupAlias : List (String × String) → String → Option String
  | [], _ => none
  | (k, val) :: rest, s => if k = s then some val else lookupAlias rest s

/-- The JS property read `SOURCE_ALIASES[key]`: own entries first, then
the prototype chain of the record literal, whose inherited values are
all truthy; `none` models `undefined`. -/
def aliasGet (table : List (String × String)) (key : String) :
    Option SourceVal :=
  match lookupAlias table key with
  | some s => some (.canonical s)
  | none =>
    if key = "constructor" ∨ key = "__proto__" ∨
        OBJECT_PROTO_METHODS.contains key then
      some (.protoJunk key)
    else none

/-- Index of the last occurrence of a character, as `lastIndexOf` returns
it (`none` when absent). -/
def lastIdxOf (cs : List Char) (c : Char) : Option Nat :=
  match cs with
  | [] => none
  | x :: rest =>
    match lastIdxOf rest c with
    | some i => some (i + 1)
    | none => if x = c then some 0 else none

/-- Index of the first occurrence of a character, as `indexOf` returns it
(`none` when absent). -/
def firstIdxOf (cs : List Char) (c : Char) : Option Nat :=
  match cs with
  | [] => none
  | x :: rest => if x = c then some 0 else (firstIdxOf rest c).map (· + 1)

/-- The source-resolution half of `parseSource`: given the main part
(version suffix already removed), read the lowercased prefix before the
first colon at positive index from the alias record; a truthy read (an
own alias entry or one of the inherited prototype values) yields the
resource-id branch, anything else makes the whole main part the
query. -/
def parseMain (mainPart : List Char) (version : Option String) : ParsedSource :=
  match firstIdxOf mainPart ':' with
  | some j =>
    if j > 0 then
      let pfx := (mainPart.take j).map Char.toLower
      match aliasGet SOURCE_ALIASES (String.mk pfx) with
      | some val =>
        ⟨some val, some (String.mk (mainPart.drop (j + 1))), none, version⟩
      | none => ⟨none, none, some (String.mk mainPart), version⟩
    else ⟨none, none, some (String.mk mainPart), version⟩
  | none => ⟨none, none, some (String.mk mainPart), version⟩

/-- Embeds `parseSource` from the source resolver: split the version
constraint at the last `@` with positive index, then resolve the main
part. -/
def parseSource (input : String) : ParsedSource :=
  let cs := input.data
  match lastIdxOf cs '@' with
  | some i =>
    if i > 0 then parseMain (cs.take i) (some (String.mk (cs.drop (i + 1))))
    else parseMain cs none
  | none => parseMain cs none

theorem lastIdxOf_not_mem (cs : List Char) (c : Char) (h : c ∉ cs) :
    lastIdxOf cs c = none := by
  induction cs with
  | nil => rfl
  | cons x rest ih =>
    simp only [List.mem_cons, not_or] at h
    simp [lastIdxOf, ih h.2, Ne.symm h.1]

theorem lastIdxOf_append (a b : List Char) (c : Char) (h : c ∉ b) :
    lastIdxOf (a ++ c :: b) c = some a.length := by
  induction a with
  | nil => simp [lastIdxOf, lastIdxOf_not_mem b c h]
  | cons x rest ih => simp [lastIdxOf, ih]

theorem firstIdxOf_not_mem (cs : List Char) (c : Char) (h : c ∉ cs) :
    firstIdxOf cs c = none := by
  induction cs with
  | nil => rfl
  | cons x rest ih =>
    simp only [List.mem_cons, not_or] at h
    simp [firstIdxOf, ih h.2, Ne.symm h.1]

theorem firstIdxOf_append (a b : List Char) (c : Char) (h : c ∉ a) :
    firstIdxOf (a ++ c :: b) c = some a.length := by
  induction a with
  | nil => simp [firstIdxOf]
  | cons x rest ih =>
    simp only [List.mem_cons, not_or] at h
    simp [firstIdxOf, Ne.symm h.1, ih h.2]

theorem drop_len_succ_append (a b : List Char) (c : Char) :
    (a ++ c :: b).drop (a.length + 1) = b := by
  induction a with
  | nil => simp
  | cons x rest ih => simp [ih]

/-! ## Modrinth search version derivation (`ModrinthRepository.search`) -/

/-- Lowercasing of a string, as `toLowerCase` is applied to loader tags. -/
def lowerStr (s : String) : String :=
  String.mk (s.data.map Char.toLower)

/-- The fields of a Modrinth version record used by the search flow; the
publication date is modelled as the numeric epoch value that
`new Date(date_published).getTime()` yields. -/
structure MVersion where
  version_number : String
  date_published : Nat
  loaders : List String
deriving DecidableEq, Repr

/-- The loader pre-filter of the search flow: keep versions whose loader
tags intersect the requested loader set (both sides lowercased); fall
back to the unfiltered list when the restriction is empty or when no
loader filter was supplied. -/
def loaderFilter (loaders : Option (List String)) (versions : List MVersion) :
    List MVersion :=
  match loaders with
  | some ls =>
    if ls.isEmpty then versions
    else
      let userLoaders := ls.map lowerStr
      let filtered := versions.filter
        (fun v => v.loaders.any (fun l => userLoaders.contains (lowerStr l)))
      if filtered.isEmpty then versions else filtered
  | none => versions

/-- Head of the list stably sorted by publication date descending: the
first entry carrying the maximal `date_published` (JS `sort` is stable,
so ties keep their original order). -/
def latestByDate (versions : List MVersion) : Option MVersion :=
  versions.foldl
    (fun best v =>
      match best with
      | none => some v
      | some b => if b.date_published < v.date_published then some v else best)
    none

/-- The re-derived version string for one search hit whose version history
fetch succeeded with `versions`. -/
def deriveLatest (loaders : Option (List String)) (versions : List MVersion) :
    Option String :=
  if versions.isEmpty then none
  else (latestByDate (loaderFilter loaders versions)).map (·.version_number)

/-- Displayed version of the search hit at position `idx`: hits past the
first 10 never get an entry in the version map, a failed fetch (`none`)
or empty history leaves no entry either, and the final display applies
the JS `versionMap.get(id) || "latest"` fallback, under which an empty
derived string also falls back to "latest". -/
def displayedVersion (idx : Nat) (loaders : Option (List String))
    (fetch : Option (List MVersion)) : String :=
  let derived : Option String :=
    if idx < 10 then
      match fetch with
      | none => none
      | some versions => deriveLatest loaders versions
    else none
  match derived with
  | some s => if s = "" then "latest" else s
  | none => "latest"

theorem latestByDate_loop_some (versions : List MVersion) (b : MVersion) :
    ∃ r, versions.foldl
      (fun best v =>
        match best with
        | none => some v
        | some b => if b.date_published < v.date_published then some v else best)
      (some b) = some r ∧
      (r ∈ versions ∨ r = b) ∧ b.date_published ≤ r.date_published ∧
      ∀ v ∈ versions, v.date_published ≤ r.date_published := by
  induction versions generalizing b with
  | nil => exact ⟨b, rfl, Or.inr rfl, le_refl _, by simp⟩
  | cons v vs ih =>
    by_cases h : b.date_published < v.date_published
    · obtain ⟨r, hr, hmem, hle, hall⟩ := ih v
      refine ⟨r, by simpa [h] using hr, ?_, by omega, ?_⟩
      · rcases hmem with h2 | h2 <;> simp [h2]
      · intro w hw
        rcases List.mem_cons.mp hw with h2 | h2
        · exact h2 ▸ hle
        · exact hall w h2
    · obtain ⟨r, hr, hmem, hle, hall⟩ := ih b
      refine ⟨r, by simpa [h] using hr, ?_, hle, ?_⟩
      · rcases hmem with h2 | h2 <;> simp [h2]
      · intro w hw
        rcases List.mem_cons.mp hw with h2 | h2
        · have hvr : v.date_published ≤ r.date_published := by omega
          exact h2 ▸ hvr
        · exact hall w h2

theorem latestByDate_spec (versions : List MVersion) (hne : versions ≠ []) :
    ∃ r, latestByDate versions = some r ∧ r ∈ versions ∧
      ∀ v ∈ versions, v.date_published ≤ r.date_published := by
  cases versions with
  | nil => exact absurd rfl hne
  | cons v vs =>
    obtain ⟨r, hr, hmem, hle, hall⟩ := latestByDate_loop_some vs v
    refine ⟨r, by simpa [latestByDate] using hr, ?_, ?_⟩
    · rcases hmem with h | h <;> simp [h]
    · intro w hw
      rcases List.mem_cons.mp hw with h | h
      · exact h ▸ hle
      · exact hall w h

theorem loaderFilter_ne_nil (loaders : Option (List String))
    (versions : List MVersion) (h : versions ≠ []) :
    loaderFilter loaders versions ≠ [] := by
  cases loaders with
  | none => exact h
  | some ls =>
    simp only [loaderFilter]
    split_ifs with h1 h2
    · exact h
    · exact h
    · simpa using h2

/-! ## Repository manager (`RepositoryManager.searchAll` in manager.ts) -/

/-- The fields of a search result relevant to aggregation (the remaining
record fields play no role in `searchAll`). -/
structure SearchResult where
  id : String
  name : String
  source : String
deriving DecidableEq, Repr

/-- A registered repository adapter as `searchAll` sees it: its `search`
either resolves with a result list or rejects with an error message. -/
structure RepoM where
  id : String
  name : String
  search : String → Except String (List SearchResult)

/-- Embeds `RepositoryManager.searchAll`: fan out to every registered
adapter, convert a per-adapter rejection into an empty list (the
`.catch` handler), await all in registration order and flatten. -/
def searchAll (repos : List RepoM) (query : String) : List SearchResult :=
  (repos.map (fun repo =>
    match repo.search query with
    | .ok rs => rs
    | .error _ => [])).flatten

theorem searchAll_append (xs ys : List RepoM) (q : String) :
    searchAll (xs ++ ys) q = searchAll xs q ++ searchAll ys q := by
  simp [searchAll]

theorem searchAll_cons_error (r : RepoM) (rest : List RepoM) (q e : String)
    (h : r.search q = .error e) :
    searchAll (r :: rest) q = searchAll rest q := by
  simp [searchAll, h]

theorem searchAll_cons_ok (r : RepoM) (rest : List RepoM) (q : String)
    (res : List SearchResult) (h : r.search q = .ok res) :
    searchAll (r :: rest) q = res ++ searchAll rest q := by
  simp [searchAll, h]

/-! ## Generic JSON adapter (`GenericRepository` in generic.ts) -/

/-- JSON values as the generic adapter receives them. -/
inductive JValue where
  | str (s : String)
  | num (n : Int)
  | bool (b : Bool)
  | null
  | arr (xs : List JValue)
  | obj (fields : List (String × JValue))

/-- Key lookup in a JSON object (`i in o` followed by `o[i]`). -/
def jLookup : List (String × JValue) → String → Option JValue
  | [], _ => none
  | (k, val) :: rest, key => if k = key then some val else jLookup rest key

/-- A string is a canonical JS array index: "0" or a digit run without a
leading zero. -/
def isCanonicalIndex (s : String) : Bool :=
  if s = "0" then true
  else !s.isEmpty && s.data.all Char.isDigit && s.data.head? ≠ some '0'

/-- The two built-in prototype objects reachable from parsed JSON
through the inherited `__proto__` accessor. -/
inductive ProtoKind where
  | objectProto
  | arrayProto
deriving DecidableEq, Repr

/-- A value reachable while resolving a dot path from a parsed JSON
response: a JSON value, a built-in function found on the prototype chain
(carrying the function's name), or one of the two built-in prototype
objects. -/
inductive JsVal where
  | json (v : JValue)
  | jsFun (name : String)
  | protoObj (k : ProtoKind)

/-- The string-keyed own properties of the ECMA-262 `Array.prototype`
other than `constructor` (all built-in functions; its own numeric
`length` is handled separately). -/
def ARRAY_PROTO_METHODS : List String :=
  ["at", "concat", "copyWithin", "entries", "every", "fill", "filter",
   "find", "findIndex", "findLast", "findLastIndex", "flat", "flatMap",
   "forEach", "includes", "indexOf", "join", "keys", "lastIndexOf",
   "map", "pop", "push", "reduce", "reduceRight", "reverse", "shift",
   "slice", "some", "sort", "splice", "toLocaleString", "toReversed",
   "toSorted", "toSpliced", "toString", "unshift", "values", "with"]

/-- Property lookup reaching `Object.prototype` on a receiver whose next
prototype is `Object.prototype`; `recvProto` is what the inherited
`__proto__` accessor reports, namely the receiver's own prototype. -/
def objectProtoGet (recvProto : JsVal) (i : String) : Option JsVal :=
  if i = "__proto__" then some recvProto
  else if i = "constructor" then some (.jsFun "Object")
  else if OBJECT_PROTO_METHODS.contains i then some (.jsFun i)
  else none

/-- Property lookup along the prototype chain of an array:
`Array.prototype` own properties first, then `Object.prototype`. -/
def arrayProtoChainGet (recvProto : JsVal) (i : String) : Option JsVal :=
  if i = "constructor" then some (.jsFun "Array")
  else if ARRAY_PROTO_METHODS.contains i then some (.jsFun i)
  else objectProtoGet recvProto i

/-- One step of the `resolvePath` reduce: the guard keeps only truthy
values of `typeof` "object" (JSON null and scalars, `undefined`, and
inherited functions all fail it and yield `undefined`), then the JS
`i in o` membership consults own properties and the prototype chain and
a hit reads the property: own JSON fields, array indices and `length`,
the inherited built-in functions, and the `__proto__` accessor
reporting the receiver's prototype (`Object.prototype` has prototype
null; `Array.prototype` is itself an array with own length 0 whose
prototype is `Object.prototype`). -/
def getKey (o : Option JsVal) (i : String) : Option JsVal :=
  match o with
  | some (.json (.obj fields)) =>
    match jLookup fields i with
    | some v => some (.json v)
    | none => objectProtoGet (.protoObj .objectProto) i
  | some (.json (.arr xs)) =>
    if i = "length" then some (.json (.num xs.length))
    else if isCanonicalIndex i then
      match xs.get? (natOfDigits i.data) with
      | some v => some (.json v)
      | none => arrayProtoChainGet (.protoObj .arrayProto) i
    else arrayProtoChainGet (.protoObj .arrayProto) i
  | some (.protoObj .objectProto) => objectProtoGet (.json .null) i
  | some (.protoObj .arrayProto) =>
    if i = "length" then some (.json (.num 0))
    else arrayProtoChainGet (.protoObj .objectProto) i
  | _ => none

/-- Embeds `GenericRepository.resolvePath`: empty path returns the object,
otherwise the dot-separated path segments are reduced left to right;
`none` models `undefined`. -/
def resolvePath (obj : JValue) (path : String) : Option JsVal :=
  if path = "" then some (.json obj)
  else ((splitOnDot path.data).map String.mk).foldl getKey (some (.json obj))

/-- Embeds `GenericRepository.toSafeString`: null and undefined become "",
strings pass through, numbers and booleans are stringified, and every
other value (objects, arrays, inherited functions, prototype objects)
collapses to "". -/
def toSafeString : Option JsVal → String
  | none => ""
  | some (.json .null) => ""
  | some (.json (.str s)) => s
  | some (.json (.num n)) => toString n
  | some (.json (.bool b)) => if b then "true" else "false"
  | some (.json (.arr _)) => ""
  | some (.json (.obj _)) => ""
  | some (.jsFun _) => ""
  | some (.protoObj _) => ""

/-- Field extraction as `search` performs it:
`toSafeString(resolvePath(item, mappingPath))`. -/
def extractField (item : JValue) (path : String) : String :=
  toSafeString (resolvePath item path)

/-- JS `String()` of a defined JSON value: strings pass through, null
renders as "null", objects render as "[object Object]" and arrays render
as the comma-joined rendering of their elements (null elements blank). -/
def jsStringOfJV : JValue → String
  | .str s => s
  | .num n => toString n
  | .bool b => if b then "true" else "false"
  | .null => "null"
  | .obj _ => "[object Object]"
  | .arr xs => String.intercalate ","
      (xs.attach.map (fun x =>
        match x with
        | ⟨.null, _⟩ => ""
        | ⟨v, _⟩ => jsStringOfJV v))

/-- JS `String(value)` on a resolved value or `undefined`: unlike
`toSafeString` it renders `undefined`, inherited functions (as the V8
native-function source text) and the prototype objects
(`Object.prototype` renders as an object, `Array.prototype` as the
empty array it is). -/
def jsString : Option JsVal → String
  | none => "undefined"
  | some (.json v) => jsStringOfJV v
  | some (.jsFun name) => "function " ++ name ++ "() \x7b [native code] \x7d"
  | some (.protoObj .objectProto) => "[object Object]"
  | some (.protoObj .arrayProto) => ""

theorem jsStringOfJV_obj (fields : List (String × JValue)) :
    jsStringOfJV (.obj fields) = "[object Object]" := by
  unfold jsStringOfJV
  rfl

/-- The version-info field mappings of a generic repository
configuration; `downloadUrl` is a required (but possibly empty and then
falsy) string, `fileName` is optional. -/
structure VersionMappingsG where
  version : String
  downloadUrl : String
  fileName : Option String
deriving DecidableEq, Repr

/-- Resolved downloadable version record. -/
structure VersionInfo where
  id : String
  version : String
  downloadUrl : String
  fileName : String
deriving DecidableEq, Repr

/-- The pure core of `GenericRepository.getLatestVersion`: extract the
version with `toSafeString`, but the file name and download URL with the
raw JS `String(...)` coercion; `response` is the JSON body fetched from
the configured version path. -/
def getLatestVersionG (vm : VersionMappingsG) (id : String)
    (response : JValue) : VersionInfo :=
  let version := toSafeString (resolvePath response vm.version)
  let fileName :=
    match vm.fileName with
    | some fn =>
      if fn ≠ "" then jsString (resolvePath response fn)
      else id ++ "-" ++ version ++ ".jar"
    | none => id ++ "-" ++ version ++ ".jar"
  let downloadUrl :=
    if vm.downloadUrl ≠ "" then jsString (resolvePath response vm.downloadUrl)
    else ""
  ⟨id, version, downloadUrl, fileName⟩

/-- Embeds `GenericRepository.getVersionDownload`: the requested version
argument is ignored and the latest-version record is returned. -/
def getVersionDownloadG (vm : VersionMappingsG) (id : String)
    (_version : String) (response : JValue) : VersionInfo :=
  getLatestVersionG vm id response

/-! ## Claim theorems -/

theorem take_len_append (a b : List Char) : (a ++ b).take a.length = a := by
  induction a with
  | nil => rfl
  | cons x rest ih => simp [ih]

/-- C1: minor-update mode selects, among the entries whose parsed major
equals the current major and that compare strictly greater than the
current version, a qualifying entry that no qualifying entry strictly
exceeds per the comparator, and reports no update when no entry
qualifies; for current "5.1.0" and candidates
["5.0.9", "5.1.5", "6.0.0", "5.1.0"] it selects "5.1.5", never
"6.0.0". -/
theorem claim_C1_minor_update_selection (cur : String)
    (versions : List VEntry) :
    (findMinorUpdate cur versions = none ↔
      ∀ v ∈ versions, ¬ Qualifies cur v) ∧
    (∀ b, findMinorUpdate cur versions = some b →
      b ∈ versions ∧ Qualifies cur b ∧
      ∀ v ∈ versions, Qualifies cur v →
        compareVersions v.name b.name ≤ 0) ∧
    findMinorUpdate "5.1.0"
      [⟨"5.0.9", none⟩, ⟨"5.1.5", none⟩, ⟨"6.0.0", none⟩, ⟨"5.1.0", none⟩] =
      some ⟨"5.1.5", none⟩ ∧
    findMinorUpdate "5.1.0"
      [⟨"5.0.9", none⟩, ⟨"5.1.5", none⟩, ⟨"6.0.0", none⟩, ⟨"5.1.0", none⟩] ≠
      some ⟨"6.0.0", none⟩ := by
  refine ⟨?_, ?_, by decide, by decide⟩
  · simpa using findMinorUpdate_loop_none_iff cur versions none
  · intro b h
    rcases findMinorUpdate_loop_mem cur versions none b h with hmem | hacc
    · exact ⟨hmem.1, hmem.2, (findMinorUpdate_loop_max cur versions none b h).2⟩
    · exact absurd hacc (by simp)

theorem claim_C1_witness :
    (⟨"5.1.5", none⟩ : VEntry) ∈
      [⟨"5.0.9", none⟩, ⟨"5.1.5", none⟩, ⟨"6.0.0", none⟩,
       (⟨"5.1.0", none⟩ : VEntry)] :=
  ((claim_C1_minor_update_selection "5.1.0"
      [⟨"5.0.9", none⟩, ⟨"5.1.5", none⟩, ⟨"6.0.0", none⟩,
       ⟨"5.1.0", none⟩]).2.1
    ⟨"5.1.5", none⟩ (by decide)).1

/-- C2: the comparator is antisymmetric and reflexively zero; at equal
numeric parts a stable version beats a prerelease one (in particular
compare("1.2.0", "1.2.0-SNAPSHOT") = 1) and two non-empty prereleases
tie. -/
theorem claim_C2_comparator_algebra (a b : String) :
    compareVersions a b = -compareVersions b a ∧
    compareVersions a a = 0 ∧
    ((parseVersion a).major = (parseVersion b).major →
      (parseVersion a).minor = (parseVersion b).minor →
      (parseVersion a).patch = (parseVersion b).patch →
      ((parseVersion a).prerelease = "" → (parseVersion b).prerelease ≠ "" →
        compareVersions a b = 1) ∧
      ((parseVersion a).prerelease ≠ "" → (parseVersion b).prerelease ≠ "" →
        compareVersions a b = 0)) ∧
    compareVersions "1.2.0" "1.2.0-SNAPSHOT" = 1 := by
  refine ⟨compareVersions_antisymm a b, compareVersions_refl a, ?_, by decide⟩
  intro h1 h2 h3
  constructor
  · intro hA hB
    unfold compareVersions cmpSemVer
    simp [h1, h2, h3, hA, hB]
  · intro hA hB
    unfold compareVersions cmpSemVer
    simp [h1, h2, h3, hA, hB]

theorem claim_C2_witness :
    compareVersions "1.2.0-alpha" "1.2.0-beta" = 0 :=
  ((claim_C2_comparator_algebra "1.2.0-alpha" "1.2.0-beta").2.2.1
    (by decide) (by decide) (by decide)).2 (by decide) (by decide)

theorem supports_false_iff (gvs : Option (List String)) (sv : String) :
    supportsServerVersion gvs sv = false ↔
      gvs.getD [] ≠ [] ∧
      ∀ v ∈ gvs.getD [],
        strStartsWith v (majorMinor sv) = false ∧
        strStartsWith sv (majorMinor v) = false := by
  cases gvs with
  | none => simp [supportsServerVersion]
  | some l =>
    cases l with
    | nil => simp [supportsServerVersion]
    | cons x xs =>
      simp only [supportsServerVersion, Option.getD_some]
      rw [if_neg (by simp)]
      simp only [List.any_eq_false, Bool.not_eq_true, Bool.or_eq_false_iff]
      constructor
      · intro h
        exact ⟨by simp, h⟩
      · intro h
        exact h.2

/-- C3 counterexample: with safe mode on, a chosen target whose
gameVersions list is ["1.2"] against server "1.20.1" has a non-empty
list with no major.minor intersection with the server version, yet it is
not rejected (the update is kept), because `supportsServerVersion` uses
string prefix tests rather than exact major.minor equality. -/
theorem claim_C3_counterexample :
    (["1.2"] : List String) ≠ [] ∧
    specIntersectsMM ["1.2"] "1.20.1" = false ∧
    supportsServerVersion (some ["1.2"]) "1.20.1" = true ∧
    planUpdate false true "1.0.0" [⟨"1.5.0", some ["1.2"]⟩] "1.20.1" =
      .update ⟨"1.5.0", some ["1.2"]⟩ := by
  exact ⟨by decide, by decide, by decide, by decide⟩

/-- C3 amended: with safe mode enabled, a chosen target is rejected
(skipped, not downloaded) if and only if its gameVersions list is
non-empty and no entry v of it satisfies the prefix test of the code: v
starts with the server version's major.minor truncation, or the server
version starts with the major.minor truncation of v. A target with empty
or absent gameVersions is never rejected, and a target with gameVersions
["1.19"] against server "1.20.1" is rejected. -/
theorem claim_C3_amended (useLatest : Bool) (depVersion : String)
    (versions : List VEntry) (serverVersion : String) (t : VEntry)
    (hch : chooseTarget useLatest depVersion versions = some t) :
    (planUpdate useLatest true depVersion versions serverVersion =
        .skipped t ↔
      t.gameVersions.getD [] ≠ [] ∧
      ∀ v ∈ t.gameVersions.getD [],
        strStartsWith v (majorMinor serverVersion) = false ∧
        strStartsWith serverVersion (majorMinor v) = false) ∧
    (t.gameVersions.getD [] = [] →
      planUpdate useLatest true depVersion versions serverVersion =
        .update t) ∧
    planUpdate false true "1.0.0" [⟨"1.5.0", some ["1.19"]⟩] "1.20.1" =
      .skipped ⟨"1.5.0", some ["1.19"]⟩ := by
  have hne : versions.isEmpty = false := by
    cases versions with
    | nil =>
      exfalso
      cases huL : useLatest <;>
        simp [chooseTarget, huL, findMinorUpdate] at hch
    | cons v vs => rfl
  have hplan : planUpdate useLatest true depVersion versions serverVersion =
      (if supportsServerVersion t.gameVersions serverVersion
       then PlanResult.update t else PlanResult.skipped t) := by
    cases hs : supportsServerVersion t.gameVersions serverVersion <;>
      simp [planUpdate, hne, hch, hs]
  refine ⟨?_, ?_, by decide⟩
  · rw [hplan, ← supports_false_iff t.gameVersions serverVersion]
    cases hs : supportsServerVersion t.gameVersions serverVersion <;> simp [hs]
  · intro hempty
    have hs : supportsServerVersion t.gameVersions serverVersion = true := by
      cases hgv : t.gameVersions with
      | none => simp [supportsServerVersion]
      | some l =>
        rw [hgv] at hempty
        simp only [Option.getD_some] at hempty
        subst hempty
        simp [supportsServerVersion]
    rw [hplan, if_pos hs]

theorem claim_C3_witness :
    planUpdate false true "1.0.0" [⟨"1.5.0", some ["1.19"]⟩] "1.20.1" =
      .skipped ⟨"1.5.0", some ["1.19"]⟩ :=
  ((claim_C3_amended false "1.0.0" [⟨"1.5.0", some ["1.19"]⟩] "1.20.1"
      ⟨"1.5.0", some ["1.19"]⟩ (by decide)).1).mpr (by decide)

/-- C4 counterexample: "constructor" matches no entry of the alias
table, yet parseSource("constructor:123") takes the resource-id branch
(id "123", query null), because the JS property read
SOURCE_ALIASES["constructor"] finds the truthy inherited Object
constructor on the prototype chain; so an unknown prefix does not always
make the main part the free-text query. -/
theorem claim_C4_counterexample :
    lookupAlias SOURCE_ALIASES "constructor" = none ∧
    parseSource "constructor:123" =
      ⟨some (.protoJunk "constructor"), some "123", none, none⟩ := by
  exact ⟨by decide, by decide⟩

/-- C4 amended: the parser splits the version constraint at the last
at-sign with positive index (an at-sign at index 0 is kept in the main
part), then resolves the main part: a truthy property read of the
lowercased prefix before the first colon at positive index — a known
alias, or a name inherited from the alias record's prototype (after
lowercasing, exactly "constructor" and "__proto__") — yields the
resource-id branch, anything else makes the whole main part the
free-text query; with the three round-trip examples of the spec and the
inherited-prefix example. -/
theorem claim_C4_amended :
    (∀ (a b : List Char), a ≠ [] → '@' ∉ b →
      parseSource (String.mk (a ++ '@' :: b)) =
        parseMain a (some (String.mk b))) ∧
    (∀ (b : List Char), '@' ∉ b →
      parseSource (String.mk ('@' :: b)) = parseMain ('@' :: b) none) ∧
    (∀ (cs : List Char), '@' ∉ cs →
      parseSource (String.mk cs) = parseMain cs none) ∧
    (∀ (p rest : List Char) (v : Option String) (val : SourceVal), ':' ∉ p →
      aliasGet SOURCE_ALIASES (String.mk (p.map Char.toLower)) = some val →
      parseMain (p ++ ':' :: rest) v =
        ⟨some val, some (String.mk rest), none, v⟩) ∧
    (∀ (p rest : List Char) (v : Option String), p ≠ [] → ':' ∉ p →
      aliasGet SOURCE_ALIASES (String.mk (p.map Char.toLower)) = none →
      parseMain (p ++ ':' :: rest) v =
        ⟨none, none, some (String.mk (p ++ ':' :: rest)), v⟩) ∧
    (∀ (rest : List Char) (v : Option String),
      parseMain (':' :: rest) v =
        ⟨none, none, some (String.mk (':' :: rest)), v⟩) ∧
    (∀ (cs : List Char) (v : Option String), ':' ∉ cs →
      parseMain cs v = ⟨none, none, some (String.mk cs), v⟩) ∧
    parseSource "modrinth:sodium@1.2.0" =
      ⟨some (.canonical "modrinth"), some "sodium", none, some "1.2.0"⟩ ∧
    parseSource "viaversion" = ⟨none, none, some "viaversion", none⟩ ∧
    parseSource "spigot:19254" =
      ⟨some (.canonical "spigot"), some "19254", none, none⟩ ∧
    parseSource "constructor:123" =
      ⟨some (.protoJunk "constructor"), some "123", none, none⟩ := by
  have hmain : ∀ (p rest : List Char) (v : Option String), p ≠ [] →
      ':' ∉ p →
      parseMain (p ++ ':' :: rest) v =
        (match aliasGet SOURCE_ALIASES
            (String.mk (p.map Char.toLower)) with
         | some val => ⟨some val, some (String.mk rest), none, v⟩
         | none => ⟨none, none, some (String.mk (p ++ ':' :: rest)), v⟩) := by
    intro p rest v hp hcp
    have hidx : firstIdxOf (p ++ ':' :: rest) ':' = some p.length :=
      firstIdxOf_append p rest ':' hcp
    have hpos : 0 < p.length := List.length_pos.mpr hp
    have htake : (p ++ ':' :: rest).take p.length = p := take_len_append p _
    have hdrop : (p ++ ':' :: rest).drop (p.length + 1) = rest :=
      drop_len_succ_append p rest ':'
    simp only [parseMain, hidx, gt_iff_lt, hpos, if_pos, htake, hdrop]
  refine ⟨?_, ?_, ?_, ?_, ?_, ?_, ?_, by decide, by decide, by decide,
    by decide⟩
  · intro a b ha hb
    have hidx : lastIdxOf (a ++ '@' :: b) '@' = some a.length :=
      lastIdxOf_append a b '@' hb
    have hpos : 0 < a.length := List.length_pos.mpr ha
    have htake : (a ++ '@' :: b).take a.length = a := take_len_append a _
    have hdrop : (a ++ '@' :: b).drop (a.length + 1) = b :=
      drop_len_succ_append a b '@'
    simp only [parseSource, hidx, gt_iff_lt, hpos, if_pos, htake, hdrop]
  · intro b hb
    have hidx : lastIdxOf ('@' :: b) '@' = some 0 := by
      simpa using lastIdxOf_append [] b '@' hb
    simp [parseSource, hidx]
  · intro cs hcs
    have hidx : lastIdxOf cs '@' = none := lastIdxOf_not_mem cs '@' hcs
    simp [parseSource, hidx]
  · intro p rest v val hcp hal
    have hp : p ≠ [] := by
      intro h
      subst h
      rw [show aliasGet SOURCE_ALIASES
          (String.mk (([] : List Char).map Char.toLower)) = none from by
            decide] at hal
      exact Option.noConfusion hal
    rw [hmain p rest v hp hcp, hal]
  · intro p rest v hp hcp hal
    rw [hmain p rest v hp hcp, hal]
  · intro rest v
    simp [parseMain, firstIdxOf]
  · intro cs v
    intro hcs
    have hidx : firstIdxOf cs ':' = none := firstIdxOf_not_mem cs ':' hcs
    simp [parseMain, hidx]

theorem claim_C4_witness :
    parseSource (String.mk (['x'] ++ '@' :: ['1'])) =
      parseMain ['x'] (some (String.mk ['1'])) :=
  claim_C4_amended.1 ['x'] ['1'] (by decide) (by decide)

theorem parseMain_exclusive (cs : List Char) (v : Option String) :
    (parseMain cs v).id.isSome ∧ (parseMain cs v).query = none ∨
    (parseMain cs v).id = none ∧ (parseMain cs v).query.isSome := by
  unfold parseMain
  split
  · split_ifs with h
    · dsimp only
      split
      · left
        simp
      · right
        simp
    · right
      simp
  · right
    simp

/-- C7: `parseSource` is a total function (it never throws) and every
result has exactly one of id and query non-null, never both, never
neither; the empty input yields the empty free-text query with the other
fields null. -/
theorem claim_C7_parse_invariant (input : String) :
    ((parseSource input).id.isSome ∧ (parseSource input).query = none ∨
     (parseSource input).id = none ∧ (parseSource input).query.isSome) ∧
    parseSource "" = ⟨none, none, some "", none⟩ := by
  refine ⟨?_, by decide⟩
  cases hi : lastIdxOf input.data '@' with
  | none =>
    simp only [parseSource, hi]
    exact parseMain_exclusive _ _
  | some i =>
    by_cases h : i > 0
    · simp only [parseSource, hi, if_pos h]
      exact parseMain_exclusive _ _
    · simp only [parseSource, hi, if_neg h]
      exact parseMain_exclusive _ _

theorem claim_C7_witness :
    (parseSource "spigot:x@2").id.isSome ∧
      (parseSource "spigot:x@2").query = none ∨
    (parseSource "spigot:x@2").id = none ∧
      (parseSource "spigot:x@2").query.isSome :=
  (claim_C7_parse_invariant "spigot:x@2").1

/-- C5 counterexample: a hit within the first 10 whose (non-empty)
version history has as its most recent entry a version with an empty
version string displays "latest", not that derived version string,
because the JS fallback `versionMap.get(id) || "latest"` treats the
empty string as falsy. -/
theorem claim_C5_counterexample :
    latestByDate (loaderFilter none [⟨"", 5, []⟩]) = some ⟨"", 5, []⟩ ∧
    displayedVersion 0 none (some [⟨"", 5, []⟩]) = "latest" ∧
    ("latest" : String) ≠ "" := by
  exact ⟨rfl, rfl, by decide⟩

/-- C5 amended: only the first 10 hits have their displayed version
re-derived from the fetched version history as the entry with the
greatest release timestamp, after restricting to versions whose loader
tags intersect the requested loader set (falling back to the unfiltered
list when that restriction is empty); hits past the first 10, or whose
history fetch fails or returns no versions, or whose derived version
string is empty, keep the placeholder "latest". -/
theorem claim_C5_amended (idx : Nat) (loaders : Option (List String))
    (fetch : Option (List MVersion)) :
    (10 ≤ idx → displayedVersion idx loaders fetch = "latest") ∧
    (fetch = none → displayedVersion idx loaders fetch = "latest") ∧
    (fetch = some [] → displayedVersion idx loaders fetch = "latest") ∧
    (∀ vs, fetch = some vs → vs ≠ [] → idx < 10 →
      ∃ chosen, latestByDate (loaderFilter loaders vs) = some chosen ∧
        chosen ∈ loaderFilter loaders vs ∧
        (∀ v ∈ loaderFilter loaders vs,
          v.date_published ≤ chosen.date_published) ∧
        displayedVersion idx loaders fetch =
          (if chosen.version_number = "" then "latest"
           else chosen.version_number)) ∧
    (∀ (ls : List String) (vs : List MVersion), ls ≠ [] →
      (vs.filter (fun mv =>
          mv.loaders.any (fun l => (ls.map lowerStr).contains (lowerStr l))) ≠
          [] →
        loaderFilter (some ls) vs =
          vs.filter (fun mv =>
            mv.loaders.any
              (fun l => (ls.map lowerStr).contains (lowerStr l)))) ∧
      (vs.filter (fun mv =>
          mv.loaders.any (fun l => (ls.map lowerStr).contains (lowerStr l))) =
          [] →
        loaderFilter (some ls) vs = vs)) := by
  refine ⟨?_, ?_, ?_, ?_, ?_⟩
  · intro h
    simp [displayedVersion, Nat.not_lt.mpr h]
  · intro h
    subst h
    by_cases h : idx < 10 <;> simp [displayedVersion, h]
  · intro h
    subst h
    by_cases h : idx < 10 <;> simp [displayedVersion, h, deriveLatest]
  · intro vs hf hvs hidx
    subst hf
    obtain ⟨chosen, hc, hmem, hmax⟩ :=
      latestByDate_spec (loaderFilter loaders vs)
        (loaderFilter_ne_nil loaders vs hvs)
    refine ⟨chosen, hc, hmem, hmax, ?_⟩
    have hvs' : vs.isEmpty = false := by simpa using hvs
    simp [displayedVersion, hidx, deriveLatest, hvs', hc]
  · intro ls vs hls
    constructor
    · intro hfil
      simp only [loaderFilter]
      rw [if_neg (by simpa using hls)]
      rw [if_neg (by simpa using hfil)]
    · intro hfil
      simp only [loaderFilter]
      rw [if_neg (by simpa using hls)]
      rw [if_pos (by simpa using hfil)]

theorem claim_C5_witness :
    displayedVersion 0 none (some [⟨"1.0", 5, []⟩, ⟨"2.0", 9, []⟩]) =
      "2.0" := by
  obtain ⟨chosen, h1, h2, h3, h4⟩ :=
    (claim_C5_amended 0 none
        (some [⟨"1.0", 5, []⟩, ⟨"2.0", 9, []⟩])).2.2.2.1
      [⟨"1.0", 5, []⟩, ⟨"2.0", 9, []⟩] rfl (by decide) (by decide)
  have h5 : latestByDate (loaderFilter none
      [⟨"1.0", 5, []⟩, ⟨"2.0", 9, []⟩]) = some ⟨"2.0", 9, []⟩ := rfl
  rw [h1] at h5
  obtain rfl := Option.some.inj h5
  rw [if_neg (by decide)] at h4
  exact h4

/-- C6: when one registered adapter's search rejects while others
succeed, `searchAll` still resolves with the flattened concatenation of
the successful adapters' result lists, the failing adapter contributing
an empty list, and never throws itself (it is a total function of the
per-adapter outcomes). -/
theorem claim_C6_searchall_resilience (pre post : List RepoM)
    (rfail rok : RepoM) (q e : String) (res : List SearchResult)
    (hfail : rfail.search q = .error e) (hok : rok.search q = .ok res) :
    searchAll (pre ++ rfail :: post) q =
      searchAll pre q ++ searchAll post q ∧
    searchAll (pre ++ rok :: post) q =
      searchAll pre q ++ res ++ searchAll post q := by
  constructor
  · rw [searchAll_append, searchAll_cons_error rfail post q e hfail]
  · rw [searchAll_append, searchAll_cons_ok rok post q res hok,
      List.append_assoc]

theorem claim_C6_witness :
    searchAll ([] ++ (⟨"bad", "Bad", fun _ => .error "boom"⟩ : RepoM) ::
        [(⟨"good", "Good", fun _ => .ok [⟨"r1", "R", "good"⟩]⟩ : RepoM)]) "q" =
      searchAll [] "q" ++
        searchAll [(⟨"good", "Good",
          fun _ => .ok [⟨"r1", "R", "good"⟩]⟩ : RepoM)] "q" :=
  (claim_C6_searchall_resilience []
    [⟨"good", "Good", fun _ => .ok [⟨"r1", "R", "good"⟩]⟩]
    ⟨"bad", "Bad", fun _ => .error "boom"⟩
    ⟨"good", "Good", fun _ => .ok [⟨"r1", "R", "good"⟩]⟩
    "q" "boom" [⟨"r1", "R", "good"⟩] rfl rfl).1

/-- C8 counterexample: "abc" fails to parse while "0.0.0-rc" parses, yet
they compare equal (both reduce to all-zero numerics with a non-empty
prerelease), so an unparseable string does not sort strictly below every
real version; the unparseable empty string even sorts above
"0.0.0-rc". -/
theorem claim_C8_counterexample :
    versionParseFails "abc" = true ∧ versionParseFails "0.0.0-rc" = false ∧
    compareVersions "abc" "0.0.0-rc" = 0 ∧
    versionParseFails "" = true ∧ compareVersions "" "0.0.0-rc" = 1 := by
  exact ⟨by decide, by decide, by decide, by decide, by decide⟩

/-- C8 amended: a version string that fails to parse yields major = minor
= patch = 0 with the original input retained verbatim as the prerelease,
and compares strictly below any version whose parsed numeric part is
non-zero; against versions parsing to all-zero numerics, a non-empty
unparseable string sorts below stable versions and ties with prerelease
versions, while the empty string ties with stable versions and sorts
above prerelease versions. -/
theorem claim_C8_amended (a b : String) (ha : versionParseFails a = true) :
    parseVersion a = ⟨0, 0, 0, a⟩ ∧
    (((parseVersion b).major ≠ 0 ∨ (parseVersion b).minor ≠ 0 ∨
        (parseVersion b).patch ≠ 0) → compareVersions a b = -1) ∧
    ((parseVersion b).major = 0 → (parseVersion b).minor = 0 →
      (parseVersion b).patch = 0 →
      (a ≠ "" → (parseVersion b).prerelease = "" →
        compareVersions a b = -1) ∧
      (a ≠ "" → (parseVersion b).prerelease ≠ "" →
        compareVersions a b = 0) ∧
      (a = "" → (parseVersion b).prerelease = "" →
        compareVersions a b = 0) ∧
      (a = "" → (parseVersion b).prerelease ≠ "" →
        compareVersions a b = 1)) := by
  have h0 : parseVersion a = ⟨0, 0, 0, a⟩ := by
    unfold versionParseFails at ha
    simp only [parseVersion, ha, if_true]
  refine ⟨h0, ?_, ?_⟩
  · intro h
    unfold compareVersions
    rw [h0]
    by_cases hM : (parseVersion b).major = 0
    · by_cases hm : (parseVersion b).minor = 0
      · have hp : (parseVersion b).patch ≠ 0 := by tauto
        have hp' : 0 < (parseVersion b).patch := Nat.pos_of_ne_zero hp
        simp only [cmpSemVer]
        rw [if_neg (by omega), if_neg (by omega), if_pos (by omega),
          if_pos (by omega)]
      · have hm' : 0 < (parseVersion b).minor := Nat.pos_of_ne_zero hm
        simp only [cmpSemVer]
        rw [if_neg (by omega), if_pos (by omega), if_pos (by omega)]
    · have hM' : 0 < (parseVersion b).major := Nat.pos_of_ne_zero hM
      simp only [cmpSemVer]
      rw [if_pos (by omega), if_pos (by omega)]
  · intro hM hm hp
    refine ⟨?_, ?_, ?_, ?_⟩ <;> intro hA hB <;>
      unfold compareVersions <;> rw [h0] <;> simp [cmpSemVer, hM, hm, hp, hA, hB]

theorem claim_C8_witness : compareVersions "abc" "1.0.0" = -1 :=
  (claim_C8_amended "abc" "1.0.0" (by decide)).2.1 (by decide)

/-- C9: `resolvePath` tolerates missing intermediate keys by returning
undefined without throwing (resolvePath({}, "a.b.c") is undefined and
the array-index example resolves), and `toSafeString` collapses objects
and arrays to the empty string; but the claim that every extracted value
is so coerced is contradicted by `getLatestVersion`, which applies the
raw JS String() coercion to the downloadUrl (and fileName) mappings and
so produces "[object Object]" for a non-scalar value at the failing
input. -/
theorem claim_C9_string_coercion_bug :
    resolvePath (.obj []) "a.b.c" = none ∧
    resolvePath (.obj [("a", .obj [("b", .arr [.obj [("c", .str "x")]])])])
      "a.b.0.c" = some (.json (.str "x")) ∧
    toSafeString (some (.json (.obj []))) = "" ∧
    (∀ (xs : List JValue), toSafeString (some (.json (.arr xs))) = "") ∧
    (∀ (fs : List (String × JValue)),
      toSafeString (some (.json (.obj fs))) = "") ∧
    (∀ (item : JValue) (path : String) (fs : List (String × JValue)),
      resolvePath item path = some (.json (.obj fs)) →
        extractField item path = "") ∧
    (getLatestVersionG ⟨"ver", "dl", none⟩ "p"
      (.obj [("ver", .str "2.0"), ("dl", .obj [])])).downloadUrl =
      "[object Object]" ∧
    toSafeString (resolvePath (.obj [("ver", .str "2.0"), ("dl", .obj [])])
      "dl") = "" := by
  refine ⟨rfl, rfl, rfl, fun xs => rfl, fun fs => rfl, ?_, ?_, rfl⟩
  · intro item path fs h
    unfold extractField
    rw [h]
    rfl
  · have h1 : resolvePath (.obj [("ver", .str "2.0"), ("dl", .obj [])])
        "dl" = some (.json (.obj [])) := rfl
    simp [getLatestVersionG, h1, jsString, jsStringOfJV_obj]

/-- C10: the generic adapter's getVersionDownload ignores its version
argument and returns exactly the latest-version record, so the returned
VersionInfo may carry a version different from the requested one. -/
theorem claim_C10_generic_version_ignored (vm : VersionMappingsG)
    (id v : String) (response : JValue) :
    getVersionDownloadG vm id v response = getLatestVersionG vm id response ∧
    (getVersionDownloadG ⟨"ver", "", none⟩ "p" "1.0"
      (.obj [("ver", .str "2.0")])).version = "2.0" ∧
    ("2.0" : String) ≠ "1.0" := by
  exact ⟨rfl, rfl, by decide⟩

theorem claim_C10_witness :
    getVersionDownloadG ⟨"ver", "", none⟩ "p" "1.0"
        (.obj [("ver", .str "2.0")]) =
      getLatestVersionG ⟨"ver", "", none⟩ "p" (.obj [("ver", .str "2.0")]) :=
  (claim_C10_generic_version_ignored ⟨"ver", "", none⟩ "p" "1.0"
    (.obj [("ver", .str "2.0")])).1
